import Mathlib

/-!
# Verification of the BGE 20th Anniversary save editor

A shallow embedding of `read_bge20th_save.py`, the single source file of the
save editor, together with proofs about its save-file codec:

* the fixed-offset container split (`read_and_split_sav_file`),
* key-path resolution over the decoded CBOR tree (`get_value`),
* type casting of edited text (`cast_to_correct_type`),
* the surgical byte-patching save (`save_changes`), including the
  declared-size fix-up of the header,
* the JPEG scan of byte-string leaves (`make_human_readable`).

Byte sequences are modelled as `List Nat` (each element a byte value), Python
strings as Lean `String`, Python's unbounded `int` as `Int`.  A Python float is
carried as an exact unreduced fraction (IEEE-754 rounding of parsed decimals is
not modelled; no claim depends on the rounded value, only on parse
success/failure and on the encoded byte layout of non-float scalars).
Fallible Python code (exceptions) is modelled with `Option`/`Except`.
-/

/-! ## Python primitives -/

/-- Python slice `l[a:b]` with nonnegative bounds. -/
def pySlice (a b : Nat) (l : List Nat) : List Nat := (l.take b).drop a

/-- Python sequence indexing `seq[n]`: negative indices count from the end;
`Option.none` models `IndexError`. -/
def pyIdx (len : Nat) (n : Int) : Option Nat :=
  let i : Int := if n < 0 then n + len else n
  if 0 ≤ i ∧ i < len then some i.toNat else Option.none

/-- ASCII whitespace stripped by Python's `int()` / `float()`. -/
def isPyWs (c : Char) : Bool :=
  c = ' ' || c = '\t' || c = '\n' || c = '\r' || c = '\x0b' || c = '\x0c'

/-- Strip leading and trailing whitespace from a character list. -/
def stripChars (cs : List Char) : List Char :=
  ((cs.dropWhile isPyWs).reverse.dropWhile isPyWs).reverse

/-- Value of an ASCII decimal digit. -/
def digitVal (c : Char) : Option Nat :=
  if '0' ≤ c ∧ c ≤ '9' then some (c.toNat - 48) else Option.none

/-- Digit run of a Python numeric literal, after its first character: single
underscores may appear, each between two digits (CPython since 3.6).
Accumulates the base-10 value and the number of digits consumed. -/
def parseDigitsGo (acc len : Nat) : List Char → Option (Nat × Nat)
  | [] => some (acc, len)
  | '_' :: c :: rest =>
    match digitVal c with
    | some d => parseDigitsGo (acc * 10 + d) (len + 1) rest
    | Option.none => Option.none
  | c :: rest =>
    match digitVal c with
    | some d => parseDigitsGo (acc * 10 + d) (len + 1) rest
    | Option.none => Option.none

/-- A nonempty digit run (with optional single underscores between digits).
Returns the base-10 value and the digit count; `Option.none` on any other
input. -/
def parseDigits (cs : List Char) : Option (Nat × Nat) :=
  match cs with
  | [] => Option.none
  | '_' :: _ => Option.none
  | _ => parseDigitsGo 0 0 cs

/-- Python `int(text)` on a string: optional surrounding whitespace, optional
sign, then a base-10 digit run.  `Option.none` models `ValueError`.  (Non-ASCII
digits are not modelled.) -/
def pyParseIntChars (cs : List Char) : Option Int :=
  match stripChars cs with
  | '+' :: rest => (parseDigits rest).map fun p => (p.1 : Int)
  | '-' :: rest => (parseDigits rest).map fun p => -(p.1 : Int)
  | rest => (parseDigits rest).map fun p => (p.1 : Int)

/-- Python `int(text)`. -/
def pyParseInt (s : String) : Option Int := pyParseIntChars s.toList

/-- ASCII lower-casing of one character (`str.lower` restricted to ASCII). -/
def charLower (c : Char) : Char :=
  if 65 ≤ c.toNat ∧ c.toNat ≤ 90 then Char.ofNat (c.toNat + 32) else c

/-- ASCII `str.lower` over a character list. -/
def lowerChars (cs : List Char) : List Char := cs.map charLower

/-- A Python float as produced by `float(text)`: an exact unreduced fraction
`num / den`, or an infinity, or NaN.  The IEEE-754 rounding that CPython
applies to the parsed decimal is not modelled. -/
inductive PyFloat where
  | finite (num : Int) (den : Nat)
  | inf (neg : Bool)
  | nan
deriving DecidableEq

/-- Mantissa of a float literal: `digits`, `digits.`, `digits.digits` or
`.digits`.  Returns the numerator (all digits run together) and the count of
fractional digits. -/
def parseMantissa (cs : List Char) : Option (Nat × Nat) :=
  let ip := cs.takeWhile (fun c => c ≠ '.')
  let rest := cs.dropWhile (fun c => c ≠ '.')
  match rest with
  | [] => (parseDigits ip).map fun p => (p.1, 0)
  | _ :: fp =>
    if ip.isEmpty then parseDigits fp
    else
      match parseDigits ip with
      | Option.none => Option.none
      | some ipv =>
        if fp.isEmpty then some (ipv.1, 0)
        else (parseDigits fp).map fun p => (ipv.1 * 10 ^ p.2 + p.1, p.2)

/-- Exponent part of a float literal (after the `e`): optional sign and a digit
run. -/
def parseExp (cs : List Char) : Option Int :=
  match cs with
  | '+' :: rest => (parseDigits rest).map fun p => (p.1 : Int)
  | '-' :: rest => (parseDigits rest).map fun p => -(p.1 : Int)
  | rest => (parseDigits rest).map fun p => (p.1 : Int)

/-- Python `float(text)`: optional whitespace and sign, then `inf`, `infinity`
or `nan` (case-insensitive) or a decimal literal with optional exponent.
`Option.none` models `ValueError`. -/
def pyParseFloatChars (cs : List Char) : Option PyFloat :=
  let stripped := stripChars cs
  let signAndRest : Bool × List Char :=
    match stripped with
    | '+' :: rest => (false, rest)
    | '-' :: rest => (true, rest)
    | rest => (false, rest)
  let neg := signAndRest.1
  let body := signAndRest.2
  let lbody := lowerChars body
  if lbody = ['i', 'n', 'f'] ∨ lbody = ['i', 'n', 'f', 'i', 'n', 'i', 't', 'y'] then
    some (.inf neg)
  else if lbody = ['n', 'a', 'n'] then
    some PyFloat.nan
  else
    let mant := body.takeWhile (fun c => c ≠ 'e' ∧ c ≠ 'E')
    let erest := body.dropWhile (fun c => c ≠ 'e' ∧ c ≠ 'E')
    match parseMantissa mant with
    | Option.none => Option.none
    | some mv =>
      let sn : Int := if neg then -(mv.1 : Int) else (mv.1 : Int)
      match erest with
      | [] => some (.finite sn (10 ^ mv.2))
      | _ :: etail =>
        match parseExp etail with
        | Option.none => Option.none
        | some e =>
          if 0 ≤ e then some (.finite (sn * 10 ^ e.toNat) (10 ^ mv.2))
          else some (.finite sn (10 ^ mv.2 * 10 ^ (-e).toNat))

/-- Python `float(text)`. -/
def pyParseFloat (s : String) : Option PyFloat := pyParseFloatChars s.toList

/-! ## The decoded CBOR value tree

`cbor2.loads` yields a dynamically typed Python value: ints, floats, bools,
strings, byte strings, `None`, lists and (insertion-ordered) dicts.  Sequences
and pair lists are separate inductives so that all recursion stays
structural. -/

mutual
inductive PyVal where
  | int (n : Int)
  | float (f : PyFloat)
  | bool (b : Bool)
  | str (s : String)
  | bytes (bs : List Nat)
  | pynone
  | list (xs : PyValSeq)
  | dict (ps : PyValPairs)

inductive PyValSeq where
  | nil
  | cons (x : PyVal) (xs : PyValSeq)

inductive PyValPairs where
  | nil
  | cons (k v : PyVal) (ps : PyValPairs)
end

/-- Length of a sequence node. -/
def PyValSeq.length : PyValSeq → Nat
  | .nil => 0
  | .cons _ xs => xs.length + 1

/-- Element lookup in a sequence node. -/
def PyValSeq.get? : PyValSeq → Nat → Option PyVal
  | .nil, _ => Option.none
  | .cons x _, 0 => some x
  | .cons _ xs, n + 1 => xs.get? n

/-- Number of entries of a map node. -/
def PyValPairs.length : PyValPairs → Nat
  | .nil => 0
  | .cons _ _ ps => ps.length + 1

/-- Python `==` between a CBOR map key and a `str` lookup key. -/
def pyKeyEqStr (k : PyVal) (s : String) : Bool :=
  match k with
  | .str t => t = s
  | _ => false

/-- Python `==` between a CBOR map key and an `int` lookup key (Python numeric
equality across types: `True == 1`, `2.0 == 2`). -/
def pyKeyEqInt (k : PyVal) (n : Int) : Bool :=
  match k with
  | .int m => m = n
  | .bool b => (if b then (1 : Int) else 0) = n
  | .float f =>
    match f with
    | .finite num den => num = n * den
    | _ => false
  | _ => false

/-- Python `d[s]` on a dict with a string key: first entry whose key compares
equal. -/
def PyValPairs.findStr : PyValPairs → String → Option PyVal
  | .nil, _ => Option.none
  | .cons k v ps, s => if pyKeyEqStr k s then some v else ps.findStr s

/-- Python `d[n]` on a dict with an integer key. -/
def PyValPairs.findInt : PyValPairs → Int → Option PyVal
  | .nil, _ => Option.none
  | .cons k v ps, n => if pyKeyEqInt k n then some v else ps.findInt n

/-! ## Key-path resolution (`CBORViewerApp.get_value`) -/

/-- Python exceptions that key-path resolution can raise. -/
inductive PyErr where
  | keyError
  | indexError
  | typeError
  | valueError
deriving DecidableEq

/-- The spec's `PathNotFound` class of errors: an absent map key or an
out-of-range sequence index. -/
def PathNotFound (e : PyErr) : Prop := e = PyErr.keyError ∨ e = PyErr.indexError

/-- `key.startswith("[") and key.endswith("]")`. -/
def isBracketKey (s : String) : Bool :=
  s.toList.head? = some '[' && s.toList.getLast? = some ']'

/-- Python slice `key[1:-1]`. -/
def innerKey (s : String) : String := String.mk ((s.toList.drop 1).dropLast)

/-- `CBORViewerApp.get_value`: walk the decoded tree along the display keys,
strictly left to right.  A key of the form `"[i]"` is applied as Python
subscription `d[int(i)]` (sequence indexing, or integer-key lookup when the
node is a dict); any other key as `d[key]` with a string key.  Subscripting a
scalar raises `TypeError`, a missing dict key `KeyError`, an out-of-range
index `IndexError`, a malformed bracket number `ValueError`. -/
def get_value (d : PyVal) : List String → Except PyErr PyVal
  | [] => .ok d
  | key :: rest =>
    if isBracketKey key then
      match pyParseInt (innerKey key) with
      | Option.none => .error .valueError
      | some n =>
        match d with
        | .list xs =>
          match pyIdx xs.length n with
          | some j =>
            match xs.get? j with
            | some v => get_value v rest
            | Option.none => .error .indexError
          | Option.none => .error .indexError
        | .dict ps =>
          match ps.findInt n with
          | some v => get_value v rest
          | Option.none => .error .keyError
        | .str s =>
          match pyIdx s.toList.length n with
          | some j =>
            match s.toList.get? j with
            | some c => get_value (.str (String.mk [c])) rest
            | Option.none => .error .indexError
          | Option.none => .error .indexError
        | .bytes bs =>
          match pyIdx bs.length n with
          | some j =>
            match bs.get? j with
            | some b => get_value (.int (Int.ofNat b)) rest
            | Option.none => .error .indexError
          | Option.none => .error .indexError
        | _ => .error .typeError
    else
      match d with
      | .dict ps =>
        match ps.findStr key with
        | some v => get_value v rest
        | Option.none => .error .keyError
      | _ => .error .typeError

/-! ## Type casting (`CBORViewerApp.cast_to_correct_type`) -/

/-- `CBORViewerApp.cast_to_correct_type`: cast the edit dialog's text to the
declared type name; a `ValueError` from `int()` / `float()` is caught and the
raw text returned unchanged; every other type name falls through to
`str(value)`, the identity on the text. -/
def cast_to_correct_type (value : String) (value_type : String) : PyVal :=
  if value_type = "int" then
    match pyParseInt value with
    | some n => .int n
    | Option.none => .str value
  else if value_type = "float" then
    match pyParseFloat value with
    | some f => .float f
    | Option.none => .str value
  else if value_type = "bool" then
    .bool (lowerChars value.toList = ['t', 'r', 'u', 'e'] || lowerChars value.toList = ['1'])
  else
    .str value

/-! ## CBOR encoding (`cbor2.dumps`)

The editor re-encodes individual scalars with `cbor2.dumps` and patches the
resulting byte patterns into the file.  The model follows RFC 8949 preferred
serialization as produced by `cbor2`: minimal-length argument encodings,
definite-length strings and containers, bignum tags 2/3 for integers outside
the 64-bit argument range, and `0xfb` (binary64) for floats. -/

/-- Big-endian minimal base-`b` digits of `n`; `fuel` bounds the recursion and
every use supplies more fuel than digits. -/
def digitsBE (b : Nat) : Nat → Nat → List Nat
  | 0, _ => []
  | fuel + 1, n => if n < b then [n] else digitsBE b fuel (n / b) ++ [n % b]

/-- CBOR initial byte(s) for major type `m` with argument `n` (minimal-length
preferred serialization). -/
def cborHead (m : Nat) (n : Nat) : List Nat :=
  if n < 24 then [m * 32 + n]
  else if n < 2 ^ 8 then [m * 32 + 24, n]
  else if n < 2 ^ 16 then [m * 32 + 25, n / 2 ^ 8, n % 2 ^ 8]
  else if n < 2 ^ 32 then
    [m * 32 + 26, n / 2 ^ 24 % 2 ^ 8, n / 2 ^ 16 % 2 ^ 8, n / 2 ^ 8 % 2 ^ 8, n % 2 ^ 8]
  else
    [m * 32 + 27, n / 2 ^ 56 % 2 ^ 8, n / 2 ^ 48 % 2 ^ 8, n / 2 ^ 40 % 2 ^ 8,
      n / 2 ^ 32 % 2 ^ 8, n / 2 ^ 24 % 2 ^ 8, n / 2 ^ 16 % 2 ^ 8, n / 2 ^ 8 % 2 ^ 8, n % 2 ^ 8]

/-- UTF-8 bytes of one character. -/
def utf8Bytes (c : Char) : List Nat :=
  let n := c.toNat
  if n < 2 ^ 7 then [n]
  else if n < 2 ^ 11 then [192 + n / 64, 128 + n % 64]
  else if n < 2 ^ 16 then [224 + n / 4096, 128 + n / 64 % 64, 128 + n % 64]
  else [240 + n / 262144, 128 + n / 4096 % 64, 128 + n / 64 % 64, 128 + n % 64]

/-- UTF-8 encoding of a string. -/
def strBytes (s : String) : List Nat := (s.toList.map utf8Bytes).flatten

/-- Round the nonnegative fraction `num / den` to the nearest integer, ties to
even. -/
def roundTiesEven (num den : Nat) : Nat :=
  let q := num / den
  let r := num % den
  if 2 * r < den then q
  else if den < 2 * r then q + 1
  else if q % 2 = 0 then q else q + 1

/-- Scale `num / den` up by powers of two until it reaches `2 ^ 52`, tracking
the binary exponent. -/
def f64scaleUp : Nat → Nat → Nat → Int → Nat × Nat × Int
  | 0, num, den, e => (num, den, e)
  | fuel + 1, num, den, e =>
    if num < 2 ^ 52 * den then f64scaleUp fuel (num * 2) den (e - 1) else (num, den, e)

/-- Scale `num / den` down by powers of two until it is below `2 ^ 53`. -/
def f64scaleDown : Nat → Nat → Nat → Int → Nat × Nat × Int
  | 0, num, den, e => (num, den, e)
  | fuel + 1, num, den, e =>
    if 2 ^ 53 * den ≤ num then f64scaleDown fuel num (den * 2) (e + 1) else (num, den, e)

/-- Big-endian bytes of a 64-bit word. -/
def word64Bytes (bits : Nat) : List Nat :=
  [bits / 2 ^ 56 % 256, bits / 2 ^ 48 % 256, bits / 2 ^ 40 % 256, bits / 2 ^ 32 % 256,
    bits / 2 ^ 24 % 256, bits / 2 ^ 16 % 256, bits / 2 ^ 8 % 256, bits % 256]

/-- IEEE-754 binary64 big-endian bytes of a Python float (round to nearest,
ties to even; subnormals and overflow to infinity included). -/
def f64bytes (f : PyFloat) : List Nat :=
  match f with
  | .inf neg => word64Bytes ((if neg then 1 else 0) * 2 ^ 63 + 2047 * 2 ^ 52)
  | .nan => word64Bytes (2047 * 2 ^ 52 + 2 ^ 51)
  | .finite num den =>
    if num = 0 ∨ den = 0 then word64Bytes 0
    else
      let s : Nat := if num < 0 then 1 else 0
      let a := num.natAbs
      let fuel := Nat.log2 a + Nat.log2 den + 4400
      let p1 := f64scaleUp fuel a den 52
      let p2 := f64scaleDown fuel p1.1 p1.2.1 p1.2.2
      let e := p2.2.2
      if e < -1022 then
        word64Bytes (s * 2 ^ 63 + roundTiesEven (a * 2 ^ 1074) den)
      else
        let m := roundTiesEven p2.1 p2.2.1
        let m2 := if m = 2 ^ 53 then 2 ^ 52 else m
        let e2 := if m = 2 ^ 53 then e + 1 else e
        if 1023 < e2 then word64Bytes (s * 2 ^ 63 + 2047 * 2 ^ 52)
        else word64Bytes (s * 2 ^ 63 + (e2 + 1023).toNat * 2 ^ 52 + (m2 - 2 ^ 52))

mutual
/-- `cbor2.dumps` on a decoded Python value. -/
def cborEncode : PyVal → List Nat
  | .int n =>
    if 0 ≤ n then
      if n < 2 ^ 64 then cborHead 0 n.toNat
      else 194 :: (cborHead 2 (digitsBE 256 n.toNat n.toNat).length ++ digitsBE 256 n.toNat n.toNat)
    else
      if -n - 1 < 2 ^ 64 then cborHead 1 (-n - 1).toNat
      else
        195 :: (cborHead 2 (digitsBE 256 (-n - 1).toNat (-n - 1).toNat).length ++
          digitsBE 256 (-n - 1).toNat (-n - 1).toNat)
  | .float f => 251 :: f64bytes f
  | .bool b => if b then [245] else [244]
  | .str s => cborHead 3 (strBytes s).length ++ strBytes s
  | .bytes bs => cborHead 2 bs.length ++ bs
  | .pynone => [246]
  | .list xs => cborHead 4 xs.length ++ cborEncodeSeq xs
  | .dict ps => cborHead 5 ps.length ++ cborEncodePairs ps

/-- Concatenated encodings of the elements of a list node. -/
def cborEncodeSeq : PyValSeq → List Nat
  | .nil => []
  | .cons x xs => cborEncode x ++ cborEncodeSeq xs

/-- Concatenated key/value encodings of the entries of a map node. -/
def cborEncodePairs : PyValPairs → List Nat
  | .nil => []
  | .cons k v ps => cborEncode k ++ cborEncode v ++ cborEncodePairs ps
end

/-! ## Python `bytes.find` -/

/-- Candidate scan of `bytes.find`: try positions `start, start + 1, ...`;
`fuel` bounds the loop (the wrapper supplies one unit per position). -/
def findSubAux (data pat : List Nat) : Nat → Nat → Option Nat
  | _, 0 => Option.none
  | start, fuel + 1 =>
    if data.length < start + pat.length then Option.none
    else if pat <+: data.drop start then some start
    else findSubAux data pat (start + 1) fuel

/-- Python `data.find(pat, start)`: the smallest `i ≥ start` at which `pat`
occurs entirely inside `data`; `Option.none` models the return value `-1`. -/
def findSub (data pat : List Nat) (start : Nat) : Option Nat :=
  findSubAux data pat start (data.length + 1 - start)

/-! ## The surgical save (`CBORViewerApp.save_changes`) -/

/-- One entry of `self.changes`, the edit journal: the value originally read at
the edited path, the replacement text, and the declared type name shown in the
edit dialog. -/
structure ChangeRecord where
  original : PyVal
  newText : String
  valueType : String

/-- The per-edit body of the loop in `save_changes`: encode the recorded
original value and the cast replacement text, find the original's encoding in
the working bytes, and splice the replacement over its first occurrence; when
`find` returns `-1` the bytes are left untouched. -/
def applyChange (buf : List Nat) (c : ChangeRecord) : List Nat :=
  let ob := cborEncode c.original
  let nb := cborEncode (cast_to_correct_type c.newText c.valueType)
  match findSub buf ob 0 with
  | Option.none => buf
  | some i => buf.take i ++ nb ++ buf.drop (i + ob.length)

/-- The edit loop of `save_changes`, over the journal in insertion order. -/
def applyChanges (buf : List Nat) (cs : List ChangeRecord) : List Nat :=
  cs.foldl applyChange buf

/-- ASCII code of one lowercase hex digit. -/
def hexByte (d : Nat) : Nat := if d < 10 then 48 + d else 87 + d

/-- The Python format spec `08x` applied to `n` and ASCII-encoded: minimal
lowercase hex digits, left-padded with `'0'` to at least eight characters. -/
def toAsciiHex8 (n : Nat) : List Nat :=
  let ds := digitsBE 16 (n + 1) n
  List.replicate (8 - ds.length) 48 ++ ds.map hexByte

/-- `CBORViewerApp.save_changes` on the original file bytes and the journal:
run the edit loop, recompute the dump size from the patched bytes' payload
section, hex-encode it, and rebuild the file as signature + new size field +
everything from offset 16 on.  The function returns the bytes written back to
the file. -/
def save_changes (data : List Nat) (cs : List ChangeRecord) : List Nat :=
  let buf := applyChanges data cs
  let newDumpSize := (pySlice 26 (buf.length - 1) buf).length
  buf.take 8 ++ toAsciiHex8 newDumpSize ++ buf.drop 16

/-- Follows the spec's words for the surgical patch strategy, for comparison
with `applyChanges` (which follows the code): each edit's original encoding is
located in the untouched original file bytes `data` rather than in the working
bytes. -/
def applyChangesUntouchedFind (data : List Nat) (cs : List ChangeRecord) : List Nat :=
  cs.foldl
    (fun buf c =>
      let ob := cborEncode c.original
      let nb := cborEncode (cast_to_correct_type c.newText c.valueType)
      match findSub data ob 0 with
      | Option.none => buf
      | some i => buf.take i ++ nb ++ buf.drop (i + ob.length))
    data

/-- `save_changes` as the spec's words describe it (see
`applyChangesUntouchedFind`). -/
def save_changes_untouchedFind (data : List Nat) (cs : List ChangeRecord) : List Nat :=
  let buf := applyChangesUntouchedFind data cs
  let newDumpSize := (pySlice 26 (buf.length - 1) buf).length
  buf.take 8 ++ toAsciiHex8 newDumpSize ++ buf.drop 16

/-- Parse a list of ASCII hex-digit codes (the declared-size field) as a
base-16 number, as `int(field, 16)` would; `Option.none` on empty input or any
non-hex character. -/
def decodeAsciiHexAux : List Nat → Nat → Option Nat
  | [], acc => some acc
  | c :: cs, acc =>
    if 48 ≤ c ∧ c ≤ 57 then decodeAsciiHexAux cs (acc * 16 + (c - 48))
    else if 97 ≤ c ∧ c ≤ 102 then decodeAsciiHexAux cs (acc * 16 + (c - 87))
    else if 65 ≤ c ∧ c ≤ 70 then decodeAsciiHexAux cs (acc * 16 + (c - 55))
    else Option.none

/-- `int(bytes, 16)` on an ASCII byte sequence. -/
def decodeAsciiHex (l : List Nat) : Option Nat :=
  match l with
  | [] => Option.none
  | _ => decodeAsciiHexAux l 0

/-! ## The container split (`read_and_split_sav_file`) -/

/-- The seven fixed-offset slices taken by `read_and_split_sav_file`. -/
structure SplitSav where
  signature : List Nat
  dumpSizeField : List Nat
  separator1 : List Nat
  unknownField : List Nat
  separator2 : List Nat
  dump_data : List Nat
  separator3 : List Nat
deriving DecidableEq

/-- `read_and_split_sav_file`: slice the raw bytes at the fixed offsets
`[0:8]`, `[8:16]`, `[16:17]`, `[17:25]`, `[25:26]`, `[26:-1]`, `[-1:]`.  The
function performs no validation of any kind; every input yields a result. -/
def read_and_split_sav_file (data : List Nat) : SplitSav :=
  ⟨pySlice 0 8 data, pySlice 8 16 data, pySlice 16 17 data, pySlice 17 25 data,
    pySlice 25 26 data, pySlice 26 (data.length - 1) data, data.drop (data.length - 1)⟩

/-- Concatenation of the seven fields in field order (the spec's `join`). -/
def joinSav (s : SplitSav) : List Nat :=
  s.signature ++ s.dumpSizeField ++ s.separator1 ++ s.unknownField ++
    s.separator2 ++ s.dump_data ++ s.separator3

/-! ## JPEG extraction (`make_human_readable`, byte-string branch) -/

/-- The scan loop of `make_human_readable`: find the start marker from
`start`, find the end marker after it, emit the slice through the end marker,
and resume immediately behind it; `fuel` bounds the loop (the wrapper supplies
enough for every position). -/
def scanJpegsAux (data : List Nat) : Nat → Nat → List (List Nat)
  | _, 0 => []
  | start, fuel + 1 =>
    match findSub data [255, 216] start with
    | Option.none => []
    | some s =>
      match findSub data [255, 217] s with
      | Option.none => []
      | some e => pySlice s (e + 2) data :: scanJpegsAux data (e + 2) fuel

/-- All JPEG candidate slices of a byte string, left to right. -/
def extract_jpegs (data : List Nat) : List (List Nat) :=
  scanJpegsAux data 0 (data.length + 1)

/-- Projection of one byte-string leaf: a list of image slices (their PIL
decoding is an external effect and the raw slice is kept here), or hex text
when no candidate was found. -/
inductive Display where
  | images (segs : List (List Nat))
  | hexText (s : String)
deriving DecidableEq

/-- One lowercase hex digit character. -/
def hexChar (d : Nat) : Char := Char.ofNat (hexByte d)

/-- `binascii.hexlify(data).decode('utf-8')`. -/
def hexlify (bs : List Nat) : String :=
  String.mk ((bs.map (fun b => [hexChar (b / 16), hexChar (b % 16)])).flatten)

/-- The byte-string branch of `make_human_readable`. -/
def make_human_readable_bytes (data : List Nat) : Display :=
  match extract_jpegs data with
  | [] => .hexText (hexlify data)
  | segs => .images segs

/-- A JPEG stream as the marker scan understands it: starts with the start
marker, is at least four bytes long, and contains the end marker exactly once,
at its very end. -/
def MarkerDelimitedJpeg (s : List Nat) : Prop :=
  [255, 216] <+: s ∧ 4 ≤ s.length ∧
    ∀ i, i < s.length → ([255, 217] <+: s.drop i ↔ i = s.length - 2)

/-! ## Slice arithmetic -/

/-- Adjacent Python slices concatenate. -/
theorem pySlice_append (a b c : Nat) (l : List Nat) (hab : a ≤ b) (hbc : b ≤ c) :
    pySlice a b l ++ pySlice b c l = pySlice a c l := by
  unfold pySlice
  rw [List.drop_take, List.drop_take, List.drop_take]
  have h2 : List.drop b l = List.drop (b - a) (List.drop a l) := by
    rw [List.drop_drop]
    congr 1
    omega
  have h1 : c - a = (b - a) + (c - b) := by omega
  rw [h2, h1, List.take_add]

/-- A slice reaching the length of the list is a plain drop. -/
theorem pySlice_to_length (a : Nat) (l : List Nat) : pySlice a l.length l = l.drop a := by
  unfold pySlice
  rw [List.take_length]

/-- `C3`: Container round-trip: for every byte sequence of at least 27 bytes,
splitting it into the seven fixed-offset fields and concatenating the fields
back in field order yields exactly the input. -/
theorem c3_join_split_roundtrip (data : List Nat) (h : 27 ≤ data.length) :
    joinSav (read_and_split_sav_file data) = data := by
  have hd : data.drop (data.length - 1) = pySlice (data.length - 1) data.length data :=
    (pySlice_to_length (data.length - 1) data).symm
  simp only [joinSav, read_and_split_sav_file]
  rw [hd, pySlice_append 0 8 16 data (by omega) (by omega),
    pySlice_append 0 16 17 data (by omega) (by omega),
    pySlice_append 0 17 25 data (by omega) (by omega),
    pySlice_append 0 25 26 data (by omega) (by omega),
    pySlice_append 0 26 (data.length - 1) data (by omega) (by omega),
    pySlice_append 0 (data.length - 1) data.length data (by omega) (by omega),
    pySlice_to_length 0 data, List.drop_zero]

/-- Witness for `C3` at a concrete 27-byte input. -/
theorem c3_join_split_roundtrip_witness :
    27 ≤ (List.replicate 27 7).length ∧
      joinSav (read_and_split_sav_file (List.replicate 27 7)) = List.replicate 27 7 :=
  ⟨by decide, c3_join_split_roundtrip (List.replicate 27 7) (by decide)⟩

/-- `C4`, counterexample: on the empty input (shorter than 27 bytes) the split
does not fail at all — it returns a `SplitSav` with every field empty. -/
theorem c4_short_input_counterexample :
    read_and_split_sav_file [] = ⟨[], [], [], [], [], [], []⟩ := by decide

/-- `C4`, amended: the split never checks the input length; an input shorter
than 27 bytes is still sliced at the same fixed offsets and yields a
(degenerate) `SplitSav` with an empty payload field, and no error is raised. -/
theorem c4_short_input_amended (data : List Nat) (h : data.length < 27) :
    (read_and_split_sav_file data).dump_data = [] := by
  simp only [read_and_split_sav_file, pySlice]
  apply List.drop_eq_nil_of_le
  rw [List.length_take]
  omega

/-- Witness for the amended `C4` at a concrete 1-byte input. -/
theorem c4_short_input_amended_witness :
    ([170] : List Nat).length < 27 ∧ (read_and_split_sav_file [170]).dump_data = [] :=
  ⟨by decide, c4_short_input_amended [170] (by decide)⟩

/-- `C10`: the split never reads the declared-size field: replacing bytes 8..16
by any other eight bytes leaves the extracted payload unchanged (and no error
is possible, the split being total); the payload is always the slice
`[26 : length - 1]`. -/
theorem c10_split_ignores_declared_size (data rep : List Nat) (h : 27 ≤ data.length)
    (hrep : rep.length = 8) :
    (read_and_split_sav_file (data.take 8 ++ rep ++ data.drop 16)).dump_data
        = (read_and_split_sav_file data).dump_data ∧
      (read_and_split_sav_file data).dump_data = pySlice 26 (data.length - 1) data := by
  refine ⟨?_, rfl⟩
  have hlen : (data.take 8 ++ rep ++ data.drop 16).length = data.length := by
    simp only [List.length_append, List.length_take, List.length_drop]
    omega
  have h16 : (data.take 8 ++ rep).length = 16 := by
    simp only [List.length_append, List.length_take]
    omega
  have hdrop : (data.take 8 ++ rep ++ data.drop 16).drop 16 = data.drop 16 := by
    have hdl := List.drop_left (data.take 8 ++ rep) (data.drop 16)
    rw [h16] at hdl
    exact hdl
  have hdrop26 : (data.take 8 ++ rep ++ data.drop 16).drop 26 = data.drop 26 := by
    have e1 := List.drop_drop 10 16 (data.take 8 ++ rep ++ data.drop 16)
    have e2 := List.drop_drop 10 16 data
    rw [hdrop] at e1
    rw [← e1, ← e2]
  simp only [read_and_split_sav_file, pySlice]
  rw [hlen, List.drop_take, List.drop_take, hdrop26]

/-- Witness for `C10` at a concrete input whose replaced size field disagrees
with the payload length. -/
theorem c10_split_ignores_declared_size_witness :
    27 ≤ (List.replicate 27 1).length ∧ (List.replicate 8 255 : List Nat).length = 8 ∧
      (read_and_split_sav_file
            ((List.replicate 27 1).take 8 ++ List.replicate 8 255 ++ (List.replicate 27 1).drop 16)).dump_data
          = (read_and_split_sav_file (List.replicate 27 1)).dump_data ∧
        (read_and_split_sav_file (List.replicate 27 1)).dump_data
          = pySlice 26 ((List.replicate 27 1).length - 1) (List.replicate 27 1) :=
  ⟨by decide, by decide,
    c10_split_ignores_declared_size (List.replicate 27 1) (List.replicate 8 255)
      (by decide) (by decide)⟩

/-! ## Hex formatting of the declared size -/

/-- Every digit produced by the base-16 digit expansion is below 16. -/
theorem digitsBE16_lt (f : Nat) : ∀ n, ∀ d ∈ digitsBE 16 f n, d < 16 := by
  induction f with
  | zero =>
    intro n d hd
    simp [digitsBE] at hd
  | succ f ih =>
    intro n d hd
    by_cases hn : n < 16
    · simp [digitsBE, hn] at hd
      omega
    · simp [digitsBE, hn] at hd
      rcases hd with hd | hd
      · exact ih (n / 16) d hd
      · omega

/-- Value of the base-16 digit expansion, as a fold with accumulator. -/
theorem digitsBE16_foldl (f : Nat) : ∀ n acc, n < 16 ^ f →
    (digitsBE 16 f n).foldl (fun a d => a * 16 + d) acc
      = acc * 16 ^ (digitsBE 16 f n).length + n := by
  induction f with
  | zero =>
    intro n acc h
    have : n = 0 := by simpa using h
    subst this
    simp [digitsBE]
  | succ f ih =>
    intro n acc h
    by_cases hn : n < 16
    · simp [digitsBE, hn]
    · rw [show digitsBE 16 (f + 1) n = digitsBE 16 f (n / 16) ++ [n % 16] by
        simp [digitsBE, hn]]
      have hdiv : n / 16 < 16 ^ f := by
        rw [Nat.div_lt_iff_lt_mul (by norm_num)]
        calc n < 16 ^ (f + 1) := h
          _ = 16 ^ f * 16 := by ring
      rw [List.foldl_append, ih (n / 16) acc hdiv]
      simp only [List.foldl_cons, List.foldl_nil, List.length_append,
        List.length_singleton]
      rw [pow_succ, ← mul_assoc]
      generalize acc * 16 ^ (digitsBE 16 f (n / 16)).length = P
      omega

/-- The digit expansion of `n < 16 ^ k` has at most `k` digits. -/
theorem digitsBE16_length_le (f : Nat) : ∀ n k, n < 16 ^ f → n < 16 ^ k → 0 < k →
    (digitsBE 16 f n).length ≤ k := by
  induction f with
  | zero =>
    intro n k _ _ _
    simp [digitsBE]
  | succ f ih =>
    intro n k h1 h2 hk
    by_cases hn : n < 16
    · simp [digitsBE, hn]
      omega
    · rw [show digitsBE 16 (f + 1) n = digitsBE 16 f (n / 16) ++ [n % 16] by
        simp [digitsBE, hn]]
      have hk2 : 2 ≤ k := by
        by_contra hcon
        have hk1 : k = 1 := by omega
        rw [hk1] at h2
        simp at h2
        omega
      have hdivf : n / 16 < 16 ^ f := by
        rw [Nat.div_lt_iff_lt_mul (by norm_num)]
        calc n < 16 ^ (f + 1) := h1
          _ = 16 ^ f * 16 := by ring
      have hdivk : n / 16 < 16 ^ (k - 1) := by
        rw [Nat.div_lt_iff_lt_mul (by norm_num)]
        calc n < 16 ^ k := h2
          _ = 16 ^ (k - 1) * 16 := by
            rw [← pow_succ]
            congr 1
            omega
      have := ih (n / 16) (k - 1) hdivf hdivk (by omega)
      simp only [List.length_append, List.length_singleton]
      omega

/-- The digit expansion with nonzero fuel is never empty. -/
theorem digitsBE16_ne_nil (f n : Nat) : digitsBE 16 (f + 1) n ≠ [] := by
  by_cases hn : n < 16 <;> simp [digitsBE, hn]

/-- `n` is always below `16 ^ (n + 1)` (the fuel in `toAsciiHex8` suffices). -/
theorem lt_pow16_succ (m : Nat) : m < 16 ^ (m + 1) := by
  calc m < 2 ^ m := Nat.lt_two_pow m
    _ ≤ 16 ^ m := Nat.pow_le_pow_left (by norm_num) m
    _ ≤ 16 ^ (m + 1) := Nat.pow_le_pow_right (by norm_num) (by omega)

/-- Within the 32-bit range, the formatted size field is exactly 8 bytes. -/
theorem toAsciiHex8_length (m : Nat) (h : m < 16 ^ 8) : (toAsciiHex8 m).length = 8 := by
  have hL := digitsBE16_length_le (m + 1) m 8 (lt_pow16_succ m) h (by norm_num)
  simp only [toAsciiHex8, List.length_append, List.length_replicate, List.length_map]
  omega

/-- On nonempty input the hex parser is its accumulator loop. -/
theorem decodeAsciiHex_eq_aux (l : List Nat) (h : l ≠ []) :
    decodeAsciiHex l = decodeAsciiHexAux l 0 := by
  cases l with
  | nil => exact absurd rfl h
  | cons c cs => rfl

/-- The hex parser undoes `hexByte` digit by digit. -/
theorem decodeAux_hexByte (ds : List Nat) : ∀ acc, (∀ d ∈ ds, d < 16) →
    decodeAsciiHexAux (ds.map hexByte) acc
      = some (ds.foldl (fun a d => a * 16 + d) acc) := by
  induction ds with
  | nil =>
    intro acc _
    simp [decodeAsciiHexAux]
  | cons d ds ih =>
    intro acc hall
    have hd : d < 16 := hall d (by simp)
    have hrest : ∀ x ∈ ds, x < 16 := fun x hx => hall x (by simp [hx])
    by_cases h10 : d < 10
    · simp only [List.map_cons, decodeAsciiHexAux, hexByte, if_pos h10]
      rw [if_pos (by omega : 48 ≤ 48 + d ∧ 48 + d ≤ 57)]
      rw [show 48 + d - 48 = d from by omega]
      rw [ih (acc * 16 + d) hrest]
      simp
    · simp only [List.map_cons, decodeAsciiHexAux, hexByte, if_neg h10]
      rw [if_neg (by omega : ¬(48 ≤ 87 + d ∧ 87 + d ≤ 57))]
      rw [if_pos (by omega : 97 ≤ 87 + d ∧ 87 + d ≤ 102)]
      rw [show 87 + d - 87 = d from by omega]
      rw [ih (acc * 16 + d) hrest]
      simp

/-- Leading `'0'` padding does not change the parsed value. -/
theorem decodeAux_replicate48 (k : Nat) (rest : List Nat) :
    decodeAsciiHexAux (List.replicate k 48 ++ rest) 0 = decodeAsciiHexAux rest 0 := by
  induction k with
  | zero => simp
  | succ k ih =>
    simp only [List.replicate_succ, List.cons_append, decodeAsciiHexAux]
    rw [if_pos (by omega : 48 ≤ 48 ∧ 48 ≤ 57)]
    simpa using ih

/-- Parsing the formatted size field recovers the size. -/
theorem decode_toAsciiHex8 (m : Nat) : decodeAsciiHex (toAsciiHex8 m) = some m := by
  have hne : toAsciiHex8 m ≠ [] := by
    simp only [toAsciiHex8]
    intro hcon
    rcases List.append_eq_nil.mp hcon with ⟨_, h2⟩
    exact digitsBE16_ne_nil m m (List.map_eq_nil_iff.mp h2)
  rw [decodeAsciiHex_eq_aux _ hne]
  simp only [toAsciiHex8]
  rw [decodeAux_replicate48, decodeAux_hexByte _ 0 (digitsBE16_lt (m + 1) m),
    digitsBE16_foldl (m + 1) m 0 (lt_pow16_succ m)]
  simp

/-- `C2`: after every save, the written file's size field (bytes 8..16) parsed
as ASCII hex equals the byte length of the written file's payload segment
(bytes 26 through length - 2 inclusive); the field is recomputed from the
patched bytes, never left stale.  (Stated for patched buffers of at least 16
bytes whose payload fits the 8-hex-digit field.) -/
theorem c2_declared_size_consistent (data : List Nat) (cs : List ChangeRecord)
    (h16 : 16 ≤ (applyChanges data cs).length)
    (hbound : (applyChanges data cs).length < 27 + 16 ^ 8) :
    decodeAsciiHex (pySlice 8 16 (save_changes data cs))
      = some ((pySlice 26 ((save_changes data cs).length - 1) (save_changes data cs)).length) := by
  set buf := applyChanges data cs with hbuf
  set m := (pySlice 26 (buf.length - 1) buf).length with hm
  have hW : save_changes data cs = buf.take 8 ++ toAsciiHex8 m ++ buf.drop 16 := rfl
  have hmlt : m < 16 ^ 8 := by
    rw [hm]
    simp only [pySlice, List.length_drop, List.length_take]
    omega
  have hlen8 : (buf.take 8).length = 8 := by
    rw [List.length_take]
    omega
  have hlenhex : (toAsciiHex8 m).length = 8 := toAsciiHex8_length m hmlt
  have hlen16 : (buf.take 8 ++ toAsciiHex8 m).length = 16 := by
    rw [List.length_append, hlen8, hlenhex]
  have hWlen : (save_changes data cs).length = buf.length := by
    rw [hW]
    simp only [List.length_append, hlen8, hlenhex, List.length_drop]
    omega
  have hfield : pySlice 8 16 (save_changes data cs) = toAsciiHex8 m := by
    rw [hW]
    simp only [pySlice]
    have ht := List.take_left (buf.take 8 ++ toAsciiHex8 m) (buf.drop 16)
    rw [hlen16] at ht
    rw [ht]
    have hd := List.drop_left (buf.take 8) (toAsciiHex8 m)
    rw [hlen8] at hd
    rw [hd]
  have hdrop16W : (save_changes data cs).drop 16 = buf.drop 16 := by
    rw [hW]
    have hdl := List.drop_left (buf.take 8 ++ toAsciiHex8 m) (buf.drop 16)
    rw [hlen16] at hdl
    exact hdl
  have hdrop26W : (save_changes data cs).drop 26 = buf.drop 26 := by
    have e1 := List.drop_drop 10 16 (save_changes data cs)
    have e2 := List.drop_drop 10 16 buf
    rw [hdrop16W] at e1
    rw [← e1, ← e2]
  have hpayload : pySlice 26 (buf.length - 1) (save_changes data cs)
      = pySlice 26 (buf.length - 1) buf := by
    simp only [pySlice]
    rw [List.drop_take, List.drop_take, hdrop26W]
  rw [hWlen, hfield, hpayload, ← hm]
  exact decode_toAsciiHex8 m

/-- Witness for `C2` at a concrete 27-byte file with an empty journal. -/
theorem c2_declared_size_consistent_witness :
    16 ≤ (applyChanges (List.replicate 27 0) []).length ∧
      (applyChanges (List.replicate 27 0) []).length < 27 + 16 ^ 8 ∧
      decodeAsciiHex (pySlice 8 16 (save_changes (List.replicate 27 0) []))
        = some ((pySlice 26 ((save_changes (List.replicate 27 0) []).length - 1)
            (save_changes (List.replicate 27 0) [])).length) :=
  ⟨by decide, by decide,
    c2_declared_size_consistent (List.replicate 27 0) [] (by decide) (by decide)⟩

/-! ## Facts about the byte search -/

/-- What a successful `find` means: the pattern occurs at the result, entirely
inside the data, at or after `start`, and nowhere earlier. -/
theorem findSubAux_some (data pat : List Nat) :
    ∀ fuel start i, findSubAux data pat start fuel = some i →
      start ≤ i ∧ i + pat.length ≤ data.length ∧ pat <+: data.drop i ∧
        ∀ j, start ≤ j → j < i → ¬ pat <+: data.drop j := by
  intro fuel
  induction fuel with
  | zero =>
    intro start i h
    simp [findSubAux] at h
  | succ fuel ih =>
    intro start i h
    simp only [findSubAux] at h
    by_cases h1 : data.length < start + pat.length
    · rw [if_pos h1] at h
      exact absurd h (by simp)
    · rw [if_neg h1] at h
      by_cases h2 : pat <+: data.drop start
      · rw [if_pos h2] at h
        have he : start = i := by simpa using h
        subst he
        exact ⟨le_refl _, by omega, h2, fun j hj1 hj2 => by omega⟩
      · rw [if_neg h2] at h
        obtain ⟨ha, hb, hc, hd⟩ := ih (start + 1) i h
        refine ⟨by omega, hb, hc, ?_⟩
        intro j hj1 hj2
        rcases Nat.eq_or_lt_of_le hj1 with he | hlt
        · exact he ▸ h2
        · exact hd j hlt hj2

/-- `findSub` variant of `findSubAux_some`. -/
theorem findSub_some (data pat : List Nat) (start i : Nat)
    (h : findSub data pat start = some i) :
    start ≤ i ∧ i + pat.length ≤ data.length ∧ pat <+: data.drop i ∧
      ∀ j, start ≤ j → j < i → ¬ pat <+: data.drop j :=
  findSubAux_some data pat _ start i h

/-- `find` misses when the pattern occurs nowhere at or after `start`. -/
theorem findSubAux_none (data pat : List Nat) :
    ∀ fuel start, (∀ j, start ≤ j → ¬ pat <+: data.drop j) →
      findSubAux data pat start fuel = Option.none := by
  intro fuel
  induction fuel with
  | zero =>
    intro start h
    rfl
  | succ fuel ih =>
    intro start h
    simp only [findSubAux]
    by_cases h1 : data.length < start + pat.length
    · rw [if_pos h1]
    · rw [if_neg h1, if_neg (h start (le_refl _)),
        ih (start + 1) (fun j hj => h j (by omega))]

/-- `findSub` variant of `findSubAux_none`. -/
theorem findSub_none_of (data pat : List Nat) (start : Nat)
    (h : ∀ j, start ≤ j → ¬ pat <+: data.drop j) :
    findSub data pat start = Option.none :=
  findSubAux_none data pat _ start h

/-- `find` succeeds at the leftmost occurrence at or after `start`. -/
theorem findSubAux_eq_some (data pat : List Nat) (hpat : pat ≠ []) :
    ∀ fuel start i, start ≤ i → pat <+: data.drop i →
      (∀ j, start ≤ j → j < i → ¬ pat <+: data.drop j) →
      data.length + 1 ≤ start + fuel →
      findSubAux data pat start fuel = some i := by
  intro fuel
  induction fuel with
  | zero =>
    intro start i h1 h2 h3 h4
    exfalso
    have hplen : 0 < pat.length := List.length_pos.mpr hpat
    have hl := h2.length_le
    rw [List.length_drop] at hl
    omega
  | succ fuel ih =>
    intro start i h1 h2 h3 h4
    simp only [findSubAux]
    have hplen : 0 < pat.length := List.length_pos.mpr hpat
    have hl := h2.length_le
    rw [List.length_drop] at hl
    rcases Nat.eq_or_lt_of_le h1 with he | hlt
    · subst he
      rw [if_neg (by omega), if_pos h2]
    · rw [if_neg (by omega), if_neg (h3 start (le_refl _) hlt)]
      exact ih (start + 1) i (by omega) h2 (fun j hj1 hj2 => h3 j (by omega) hj2) (by omega)

/-- `findSub` variant of `findSubAux_eq_some`. -/
theorem findSub_eq_some (data pat : List Nat) (hpat : pat ≠ []) (start i : Nat)
    (h1 : start ≤ i) (h2 : pat <+: data.drop i)
    (h3 : ∀ j, start ≤ j → j < i → ¬ pat <+: data.drop j) :
    findSub data pat start = some i := by
  apply findSubAux_eq_some data pat hpat _ start i h1 h2 h3
  have hplen : 0 < pat.length := List.length_pos.mpr hpat
  have hl := h2.length_le
  rw [List.length_drop] at hl
  omega

/-! ## C1: the surgical patch -/

/-- `C1`, counterexample: a two-edit journal on which the code's result differs
from the spec's description.  The file is 26 header bytes `0xaa`, the payload
`01 02`, and a trailer; the journal first rewrites original value `1` to `2`,
then original value `2` to `3`.  The code finds the second pattern in the
already patched bytes (at the byte the first edit just wrote) and produces
payload `03 02`, while locating patterns in the untouched original bytes
produces `02 03`. -/
theorem c1_untouched_find_counterexample :
    save_changes (List.replicate 26 170 ++ [1, 2, 187])
        [⟨.int 1, "2", "int"⟩, ⟨.int 2, "3", "int"⟩]
      ≠ save_changes_untouchedFind (List.replicate 26 170 ++ [1, 2, 187])
        [⟨.int 1, "2", "int"⟩, ⟨.int 2, "3", "int"⟩] := by decide

/-- `C1`, amended: `save_changes` processes the journal in insertion order;
each edit CBOR-encodes its recorded original value and its replacement text
cast to the declared type, and splices the new encoding over the first
occurrence of the original's encoding in the *current working bytes* — the
original file bytes as already modified by the preceding edits — rather than
in the untouched original file bytes; afterwards the size field is rebuilt
from the patched bytes. -/
theorem c1_surgical_patch_amended (data : List Nat) (cs : List ChangeRecord)
    (c : ChangeRecord) (i : Nat)
    (hfind : findSub (applyChanges data cs) (cborEncode c.original) 0 = some i) :
    applyChanges data (cs ++ [c])
        = (applyChanges data cs).take i
            ++ cborEncode (cast_to_correct_type c.newText c.valueType)
            ++ (applyChanges data cs).drop (i + (cborEncode c.original).length) ∧
      (∀ j, j < i → ¬ cborEncode c.original <+: (applyChanges data cs).drop j) ∧
      save_changes data (cs ++ [c])
        = (applyChanges data (cs ++ [c])).take 8
            ++ toAsciiHex8 ((pySlice 26 ((applyChanges data (cs ++ [c])).length - 1)
                (applyChanges data (cs ++ [c]))).length)
            ++ (applyChanges data (cs ++ [c])).drop 16 := by
  have hstep : applyChanges data (cs ++ [c]) = applyChange (applyChanges data cs) c := by
    simp [applyChanges, List.foldl_append]
  have hsplice : applyChange (applyChanges data cs) c
      = (applyChanges data cs).take i
          ++ cborEncode (cast_to_correct_type c.newText c.valueType)
          ++ (applyChanges data cs).drop (i + (cborEncode c.original).length) := by
    simp only [applyChange]
    rw [hfind]
  obtain ⟨-, -, -, hmin⟩ := findSub_some _ _ _ _ hfind
  exact ⟨hstep.trans hsplice, fun j hj => hmin j (Nat.zero_le j) hj, rfl⟩

/-- Witness for the amended `C1`: the first edit of the counterexample journal,
applied to the concrete 29-byte file. -/
theorem c1_surgical_patch_amended_witness :
    findSub (applyChanges (List.replicate 26 170 ++ [1, 2, 187]) [])
        (cborEncode (ChangeRecord.mk (.int 1) "2" "int").original) 0 = some 26 ∧
      (applyChanges (List.replicate 26 170 ++ [1, 2, 187]) ([] ++ [ChangeRecord.mk (.int 1) "2" "int"])
          = (applyChanges (List.replicate 26 170 ++ [1, 2, 187]) []).take 26
              ++ cborEncode (cast_to_correct_type (ChangeRecord.mk (.int 1) "2" "int").newText
                  (ChangeRecord.mk (.int 1) "2" "int").valueType)
              ++ (applyChanges (List.replicate 26 170 ++ [1, 2, 187]) []).drop
                  (26 + (cborEncode (ChangeRecord.mk (.int 1) "2" "int").original).length) ∧
        (∀ j, j < 26 → ¬ cborEncode (ChangeRecord.mk (.int 1) "2" "int").original
            <+: (applyChanges (List.replicate 26 170 ++ [1, 2, 187]) []).drop j) ∧
        save_changes (List.replicate 26 170 ++ [1, 2, 187]) ([] ++ [ChangeRecord.mk (.int 1) "2" "int"])
          = (applyChanges (List.replicate 26 170 ++ [1, 2, 187])
                ([] ++ [ChangeRecord.mk (.int 1) "2" "int"])).take 8
              ++ toAsciiHex8 ((pySlice 26
                  ((applyChanges (List.replicate 26 170 ++ [1, 2, 187])
                      ([] ++ [ChangeRecord.mk (.int 1) "2" "int"])).length - 1)
                  (applyChanges (List.replicate 26 170 ++ [1, 2, 187])
                    ([] ++ [ChangeRecord.mk (.int 1) "2" "int"]))).length)
              ++ (applyChanges (List.replicate 26 170 ++ [1, 2, 187])
                  ([] ++ [ChangeRecord.mk (.int 1) "2" "int"])).drop 16) :=
  ⟨by decide,
    c1_surgical_patch_amended (List.replicate 26 170 ++ [1, 2, 187]) []
      (ChangeRecord.mk (.int 1) "2" "int") 26 (by decide)⟩

/-! ## C9: absent patterns are skipped -/

/-- `C9`: an edit whose recorded original value's encoding has no occurrence in
the current bytes is silently skipped: the buffer is returned unchanged, no
error is raised (the model is total exactly because the code branches on
`find` returning -1 instead of raising), and the save completes with the same
result as if the edit were absent from the journal. -/
theorem c9_absent_pattern_skipped (data : List Nat) (cs1 cs2 : List ChangeRecord)
    (c : ChangeRecord)
    (h : findSub (applyChanges data cs1) (cborEncode c.original) 0 = Option.none) :
    applyChange (applyChanges data cs1) c = applyChanges data cs1 ∧
      save_changes data (cs1 ++ c :: cs2) = save_changes data (cs1 ++ cs2) := by
  have hskip : applyChange (applyChanges data cs1) c = applyChanges data cs1 := by
    simp only [applyChange]
    rw [h]
  refine ⟨hskip, ?_⟩
  have happ : applyChanges data (cs1 ++ c :: cs2) = applyChanges data (cs1 ++ cs2) := by
    simp only [applyChanges, List.foldl_append, List.foldl_cons]
    simp only [applyChanges] at hskip
    rw [hskip]
  simp only [save_changes]
  rw [happ]

/-- Witness for `C9`: an edit looking for the encoding of `5` in an empty
file. -/
theorem c9_absent_pattern_skipped_witness :
    findSub (applyChanges [] []) (cborEncode (ChangeRecord.mk (.int 5) "1" "int").original) 0
        = Option.none ∧
      (applyChange (applyChanges [] []) (ChangeRecord.mk (.int 5) "1" "int")
          = applyChanges [] [] ∧
        save_changes [] ([] ++ ChangeRecord.mk (.int 5) "1" "int" :: [])
          = save_changes [] ([] ++ [])) :=
  ⟨by decide, c9_absent_pattern_skipped [] [] [] (ChangeRecord.mk (.int 5) "1" "int") (by decide)⟩

/-! ## C5: JPEG extraction -/

/-- A pattern occurring in the left part of an append occurs in the whole. -/
theorem pfx_append_right {p a b : List Nat} (h : p <+: a) : p <+: a ++ b := by
  obtain ⟨t, ht⟩ := h
  exact ⟨t ++ b, by rw [← List.append_assoc, ht]⟩

/-- A pattern that fits inside the left part of an append and occurs in the
whole occurs in the left part. -/
theorem pfx_of_append {p a b : List Nat} (hle : p.length ≤ a.length)
    (h : p <+: a ++ b) : p <+: a := by
  obtain ⟨t, ht⟩ := h
  have h1 : (p ++ t).take p.length = p := List.take_left p t
  rw [ht] at h1
  have h2 : (a ++ b).take p.length = a.take p.length := List.take_append_of_le_length hle
  refine ⟨a.drop p.length, ?_⟩
  calc p ++ a.drop p.length = a.take p.length ++ a.drop p.length := by rw [← h2, h1]
    _ = a := List.take_append_drop _ _

/-- Occurrences that fit inside the left part transfer along appends. -/
theorem occ_append_left_iff {p s1 s2 : List Nat} {i : Nat}
    (h : i + p.length ≤ s1.length) :
    (p <+: (s1 ++ s2).drop i ↔ p <+: s1.drop i) := by
  rw [List.drop_append_of_le_length (by omega : i ≤ s1.length)]
  constructor
  · intro hx
    exact pfx_of_append (by rw [List.length_drop]; omega) hx
  · exact pfx_append_right

/-- The scan returns nothing once the start marker is absent, whatever fuel is
left. -/
theorem scanJpegsAux_of_none (data : List Nat) (start fuel : Nat)
    (h : findSub data [255, 216] start = Option.none) :
    scanJpegsAux data start fuel = [] := by
  cases fuel with
  | zero => rfl
  | succ fuel =>
    simp only [scanJpegsAux]
    rw [h]

/-- `C5`: on the concatenation of two marker-delimited JPEG streams the
byte-string projection yields exactly the two streams as images, in
left-to-right order; on a byte string without any start marker it yields no
image and projects the hex text; and in general each candidate is the slice
from the found start marker through the found end marker (exclusive of
`end + 2`), with the scan resuming immediately after the end marker. -/
theorem c5_image_extraction :
    (∀ s1 s2, MarkerDelimitedJpeg s1 → MarkerDelimitedJpeg s2 →
        make_human_readable_bytes (s1 ++ s2) = .images [s1, s2]) ∧
      (∀ d : List Nat, (∀ i, ¬ [255, 216] <+: d.drop i) →
        extract_jpegs d = [] ∧ make_human_readable_bytes d = .hexText (hexlify d)) ∧
      (∀ d s e, findSub d [255, 216] 0 = some s → findSub d [255, 217] s = some e →
        extract_jpegs d = pySlice s (e + 2) d :: scanJpegsAux d (e + 2) d.length) := by
  refine ⟨?_, ?_, ?_⟩
  · intro s1 s2 hj1 hj2
    obtain ⟨hpfx1, hlen1, huniq1⟩ := hj1
    obtain ⟨hpfx2, hlen2, huniq2⟩ := hj2
    set d := s1 ++ s2 with hd
    have hdlen : d.length = s1.length + s2.length := List.length_append s1 s2
    have hend1 : [255, 217] <+: s1.drop (s1.length - 2) :=
      (huniq1 (s1.length - 2) (by omega)).mpr rfl
    have hend2 : [255, 217] <+: s2.drop (s2.length - 2) :=
      (huniq2 (s2.length - 2) (by omega)).mpr rfl
    have hdrop_s1 : d.drop s1.length = s2 := List.drop_left s1 s2
    have hshift : ∀ k, d.drop (s1.length + k) = s2.drop k := fun k => List.drop_append k
    have f1 : findSub d [255, 216] 0 = some 0 := by
      apply findSub_eq_some d [255, 216] (by decide) 0 0 (le_refl 0)
      · rw [List.drop_zero]
        exact pfx_append_right hpfx1
      · intro j hj1 hj2
        omega
    have f2 : findSub d [255, 217] 0 = some (s1.length - 2) := by
      apply findSub_eq_some d [255, 217] (by decide) 0 (s1.length - 2) (Nat.zero_le _)
      · exact (occ_append_left_iff (by simp; omega)).mpr hend1
      · intro j hj1 hj2
        rw [occ_append_left_iff (by simp; omega)]
        intro hocc
        have := (huniq1 j (by omega)).mp hocc
        omega
    have f3 : findSub d [255, 216] s1.length = some s1.length := by
      apply findSub_eq_some d [255, 216] (by decide) s1.length s1.length (le_refl _)
      · rw [hdrop_s1]
        exact hpfx2
      · intro j hj1 hj2
        omega
    have f4 : findSub d [255, 217] s1.length = some (d.length - 2) := by
      apply findSub_eq_some d [255, 217] (by decide) s1.length (d.length - 2) (by omega)
      · rw [show d.length - 2 = s1.length + (s2.length - 2) from by omega, hshift]
        exact hend2
      · intro j hj1 hj2
        rw [show j = s1.length + (j - s1.length) from by omega, hshift]
        intro hocc
        have := (huniq2 (j - s1.length) (by omega)).mp hocc
        omega
    have slice1 : pySlice 0 s1.length d = s1 := by
      simp only [pySlice, List.drop_zero]
      exact List.take_left s1 s2
    have slice2 : pySlice s1.length d.length d = s2 := by
      simp only [pySlice]
      rw [List.take_length, hdrop_s1]
    have f5 : findSub d [255, 216] d.length = Option.none := by
      apply findSub_none_of
      intro j hj
      rw [List.drop_eq_nil_of_le (by omega)]
      intro hocc
      obtain ⟨t, ht⟩ := hocc
      simp at ht
    have hextract : extract_jpegs d = [s1, s2] := by
      obtain ⟨k, hk⟩ : ∃ k, d.length + 1 = k + 2 := ⟨d.length - 1, by omega⟩
      have e1 : s1.length - 2 + 2 = s1.length := by omega
      have e2 : d.length - 2 + 2 = d.length := by omega
      unfold extract_jpegs
      rw [hk]
      simp only [scanJpegsAux, f1, f2, f3, f4, e1, e2, slice1, slice2,
        scanJpegsAux_of_none d d.length k f5]
    simp only [make_human_readable_bytes]
    rw [hextract]
  · intro d h
    have hnone : findSub d [255, 216] 0 = Option.none :=
      findSub_none_of d [255, 216] 0 (fun j _ => h j)
    have hextract : extract_jpegs d = [] := scanJpegsAux_of_none d 0 _ hnone
    refine ⟨hextract, ?_⟩
    simp only [make_human_readable_bytes]
    rw [hextract]
  · intro d s e hs he
    unfold extract_jpegs
    simp only [scanJpegsAux, hs, he]

/-- Witness for `C5` at the minimal four-byte JPEG stream. -/
theorem c5_image_extraction_witness :
    MarkerDelimitedJpeg [255, 216, 255, 217] ∧
      make_human_readable_bytes ([255, 216, 255, 217] ++ [255, 216, 255, 217])
        = .images [[255, 216, 255, 217], [255, 216, 255, 217]] ∧
      (∀ i, ¬ [255, 216] <+: ([1, 2, 3] : List Nat).drop i) ∧
      extract_jpegs [1, 2, 3] = [] ∧
      make_human_readable_bytes [1, 2, 3] = .hexText (hexlify [1, 2, 3]) := by
  have h1 : MarkerDelimitedJpeg [255, 216, 255, 217] := by
    refine ⟨⟨[255, 217], rfl⟩, by decide, ?_⟩
    decide
  have h2 : ∀ i, ¬ [255, 216] <+: ([1, 2, 3] : List Nat).drop i := by
    intro i
    by_cases hi : i < 4
    · interval_cases i <;> decide
    · rw [List.drop_eq_nil_of_le (by simp; omega)]
      decide
  obtain ⟨he, hm⟩ := c5_image_extraction.2.1 [1, 2, 3] h2
  exact ⟨h1, c5_image_extraction.1 _ _ h1 h1, h2, he, hm⟩

/-! ## C6: type casting -/

/-- `C6`: the declared type `int` parses the text as a base-10 integer and
`float` as a decimal number; on parse failure (`ValueError`) the raw text is
returned unchanged instead of raising, so a cast failure never aborts the
save; `bool` yields true exactly when the lowercased text is `true` or `1`;
`text` returns the input unchanged. -/
theorem c6_cast_to_correct_type :
    (∀ s n, pyParseInt s = some n → cast_to_correct_type s "int" = .int n) ∧
      (∀ s, pyParseInt s = Option.none → cast_to_correct_type s "int" = .str s) ∧
      (∀ s f, pyParseFloat s = some f → cast_to_correct_type s "float" = .float f) ∧
      (∀ s, pyParseFloat s = Option.none → cast_to_correct_type s "float" = .str s) ∧
      (∀ s, cast_to_correct_type s "bool"
        = .bool (lowerChars s.toList = ['t', 'r', 'u', 'e'] || lowerChars s.toList = ['1'])) ∧
      (∀ s, cast_to_correct_type s "text" = .str s) := by
  refine ⟨?_, ?_, ?_, ?_, ?_, ?_⟩
  · intro s n h
    unfold cast_to_correct_type
    rw [if_pos rfl, h]
  · intro s h
    unfold cast_to_correct_type
    rw [if_pos rfl, h]
  · intro s f h
    unfold cast_to_correct_type
    rw [if_neg (by decide), if_pos rfl, h]
  · intro s h
    unfold cast_to_correct_type
    rw [if_neg (by decide), if_pos rfl, h]
  · intro s
    unfold cast_to_correct_type
    rw [if_neg (by decide), if_neg (by decide), if_pos rfl]
  · intro s
    unfold cast_to_correct_type
    rw [if_neg (by decide), if_neg (by decide), if_neg (by decide)]

/-- Witness for `C6` at concrete inputs for each declared type. -/
theorem c6_cast_to_correct_type_witness :
    (pyParseInt "42" = some 42 ∧ cast_to_correct_type "42" "int" = .int 42) ∧
      (pyParseInt "x" = Option.none ∧ cast_to_correct_type "x" "int" = .str "x") ∧
      (pyParseFloat "1.5" = some (.finite 15 10) ∧
        cast_to_correct_type "1.5" "float" = .float (.finite 15 10)) ∧
      (pyParseFloat "y" = Option.none ∧ cast_to_correct_type "y" "float" = .str "y") ∧
      cast_to_correct_type "TRUE" "bool"
        = .bool (lowerChars "TRUE".toList = ['t', 'r', 'u', 'e'] ||
            lowerChars "TRUE".toList = ['1']) ∧
      cast_to_correct_type "hi" "text" = .str "hi" :=
  ⟨⟨by decide, c6_cast_to_correct_type.1 "42" 42 (by decide)⟩,
    ⟨by decide, c6_cast_to_correct_type.2.1 "x" (by decide)⟩,
    ⟨by decide, c6_cast_to_correct_type.2.2.1 "1.5" (.finite 15 10) (by decide)⟩,
    ⟨by decide, c6_cast_to_correct_type.2.2.2.1 "y" (by decide)⟩,
    c6_cast_to_correct_type.2.2.2.2.1 "TRUE",
    c6_cast_to_correct_type.2.2.2.2.2 "hi"⟩

/-! ## C7 and C8: key-path resolution -/

/-- `C7`: resolving the path `a`, `[2]`, `b` against the tree
`a ↦ [x, y, (b ↦ 5)]` yields the scalar 5, and resolving `a`, `[9]` against
the same tree fails with an out-of-range index error — an instance of the
spec's `PathNotFound` — not a default value. -/
theorem c7_keypath_resolution (x y : PyVal) :
    get_value (.dict (.cons (.str "a")
          (.list (.cons x (.cons y (.cons (.dict (.cons (.str "b") (.int 5) .nil)) .nil))))
          .nil))
        ["a", "[2]", "b"] = .ok (.int 5) ∧
      ∃ e, get_value (.dict (.cons (.str "a")
          (.list (.cons x (.cons y (.cons (.dict (.cons (.str "b") (.int 5) .nil)) .nil))))
          .nil))
        ["a", "[9]"] = .error e ∧ PathNotFound e :=
  ⟨rfl, .indexError, rfl, Or.inr rfl⟩

/-- `C8`, counterexample: an `ArrayIndex` step applied to a Map node does not
fail with a type mismatch — on the tree `2 ↦ 99` (a CBOR map with the integer
key 2) the path `[2]` silently resolves to 99 via Python's `d[2]` dict
lookup. -/
theorem c8_int_key_coercion_counterexample :
    get_value (.dict (.cons (.int 2) (.int 99) .nil)) ["[2]"] = .ok (.int 99) := rfl

/-- `C8`, amended: path steps are applied strictly left to right; a `MapKey`
step against an Array node fails with a `TypeError` (the spec's
`PathTypeMismatch`) and is never coerced; but an `ArrayIndex` step against a
Map node is *not* a type mismatch — it is executed as a Python dict lookup
with the integer key, which silently succeeds whenever the map holds that
integer key and raises `KeyError` otherwise. -/
theorem c8_path_type_mismatch_amended :
    (∀ (key : String) (xs : PyValSeq) (rest : List String), isBracketKey key = false →
        get_value (.list xs) (key :: rest) = .error .typeError) ∧
      (∀ (key : String) (n : Int) (ps : PyValPairs) (rest : List String),
        isBracketKey key = true → pyParseInt (innerKey key) = some n →
        get_value (.dict ps) (key :: rest)
          = match ps.findInt n with
            | some v => get_value v rest
            | Option.none => .error .keyError) := by
  constructor
  · intro key xs rest h
    simp only [get_value]
    rw [if_neg (by simp [h])]
  · intro key n ps rest h1 h2
    simp only [get_value]
    rw [if_pos h1, h2]

/-- Witness for the amended `C8`: a map-key step on an array, and an index
step on an integer-keyed map. -/
theorem c8_path_type_mismatch_amended_witness :
    (isBracketKey "x" = false ∧
        get_value (.list .nil) ["x"] = .error .typeError) ∧
      (isBracketKey "[2]" = true ∧ pyParseInt (innerKey "[2]") = some 2 ∧
        get_value (.dict (.cons (.int 2) (.int 7) .nil)) ["[2]"]
          = match (PyValPairs.cons (.int 2) (.int 7) .nil).findInt 2 with
            | some v => get_value v []
            | Option.none => .error .keyError) :=
  ⟨⟨by decide, c8_path_type_mismatch_amended.1 "x" .nil [] (by decide)⟩,
    ⟨by decide, by decide,
      c8_path_type_mismatch_amended.2 "[2]" 2 (.cons (.int 2) (.int 7) .nil) []
        (by decide) (by decide)⟩⟩
